import Mathlib

/-!
Verification of the `go-text-protocol` line parser.

The development shallowly embeds the library:

* `src/parser.rs` — the `Parser` struct holds the source string and a byte
  cursor that only ever moves forward; we model the parser state by the
  still-unconsumed suffix of the line, as a `List Char`.  Each `Parser`
  method becomes a function from that suffix to its result together with
  the new suffix.
* `src/macros.rs` — the `custom_command!` macro generates, for an ordered
  list of variant names, an enum with a catch-all variant and a
  `From<RawCommand>` conversion that compares lowercased names in
  declaration order.  We model a generated enum abstractly by the index of
  the matched variant (`Mapped.variant i`) or the catch-all payload
  (`Mapped.unrecognised`).

Rust `u32::from_str(...).unwrap()` panics when the digit run exceeds
`u32::MAX`; the `Outcome.panic` constructor records that behaviour, which
is distinct from returning an `Err` value.
-/

/-- Character class of the regex `\d` (decimal digit) used by `read_number`. -/
def isDigitChar (c : Char) : Bool := c.isDigit

/-- Character class of the regex `\s` (whitespace) used by `skip_whitespace`.
Rust's `regex` crate resolves `\s` to the Unicode `White_Space` property:
U+0009-U+000D (tab, LF, VT, FF, CR), U+0020 (space), U+0085 (NEL),
U+00A0 (NBSP), U+1680, U+2000-U+200A, U+2028, U+2029, U+202F, U+205F and
U+3000, written here by codepoint. -/
def isWhitespaceChar (c : Char) : Bool :=
  (9 ≤ c.toNat && c.toNat ≤ 13) || c.toNat == 32 || c.toNat == 133 ||
  c.toNat == 160 || c.toNat == 5760 || (8192 ≤ c.toNat && c.toNat ≤ 8202) ||
  c.toNat == 8232 || c.toNat == 8233 || c.toNat == 8239 || c.toNat == 8287 ||
  c.toNat == 12288

/-- Character class of the regex `[\w\d]` (word character: letter, digit or
underscore) used by `lex_identifier`. -/
def isWordChar (c : Char) : Bool := c.isAlphanum || c == '_'

/-- Numeric value of one decimal digit character. -/
def digitToNat (c : Char) : Nat := c.toNat - 48

/-- Value of a run of decimal digit characters, as `u32::from_str` computes it
(most significant digit first). -/
def natOfDigits (ds : List Char) : Nat := ds.foldl (fun a c => 10 * a + digitToNat c) 0

/-- The decimal digit character for a value `d < 10`. -/
def digitChar (d : Nat) : Char := Char.ofNat (48 + d)

/-- Decimal digit characters of a number, accumulator form.  The first
argument is structural-recursion fuel; any fuel at least `n` computes all
digits of `n`, since `n / 10` loses at least one unit of fuel per digit. -/
def natToDigitsAux : Nat → Nat → List Char → List Char
  | 0, _, acc => acc
  | fuel + 1, n, acc =>
    if n = 0 then acc else natToDigitsAux fuel (n / 10) (digitChar (n % 10) :: acc)

/-- Standard decimal rendering of a natural number. -/
def natToDigits (n : Nat) : List Char :=
  if n = 0 then ['0'] else natToDigitsAux n n []

/-- `RawCommand` of `src/parser.rs`: optional count, command name, arguments. -/
structure RawCommand where
  count : Option Nat
  name : List Char
  args : List (List Char)
  deriving DecidableEq

/-- The two parse error kinds declared in `src/lib.rs` (`error_chain!`).  The
`Msg`/foreign variants of the generated error type are never produced by the
parser itself, so they are not modelled. -/
inductive ErrorKind where
  | NoWhitespace
  | NoCommand
  deriving DecidableEq

/-- Observable result of running a parser entry point: a value, an error
value (`Result::Err`), or a Rust panic (from `unwrap()`). -/
inductive Outcome (α : Type) where
  | ok (a : α)
  | err (e : ErrorKind)
  | panic
  deriving DecidableEq

/-- Result of `Parser::read_number`: no leading digit (cursor unchanged), a
parsed `u32` with the rest of the line, or the panic of
`u32::from_str(digits).unwrap()` on a run exceeding `u32::MAX`. -/
inductive NumRead where
  | noDigit
  | found (n : Nat) (rest : List Char)
  | panic
  deriving DecidableEq

/-- `Parser::read_number` (src/parser.rs lines 133-146): match the regex
`^\d+` against the unconsumed suffix; on a match advance past the digits and
convert them with `u32::from_str(...).unwrap()`. -/
def Parser.read_number (s : List Char) : NumRead :=
  if (s.takeWhile isDigitChar).isEmpty then .noDigit
  else if natOfDigits (s.takeWhile isDigitChar) < 2 ^ 32 then
    .found (natOfDigits (s.takeWhile isDigitChar)) (s.drop (s.takeWhile isDigitChar).length)
  else .panic

/-- `Parser::skip_whitespace` (src/parser.rs lines 150-166): advance past the
regex match `^\s+` (possibly of length zero), then report `NoWhitespace` if
nothing was skipped.  The second component is the suffix after the advance,
which the caller's cursor points at whether or not the error is raised. -/
def Parser.skip_whitespace (s : List Char) : Except ErrorKind Unit × List Char :=
  ((if (s.takeWhile isWhitespaceChar).length = 0 then .error .NoWhitespace else .ok ()),
   s.drop (s.takeWhile isWhitespaceChar).length)

/-- `Parser::lex_identifier` (src/parser.rs lines 169-183): match the regex
`^[\w\d]+`; on success return the token and advance past it. -/
def Parser.lex_identifier (s : List Char) : Option (List Char × List Char) :=
  if (s.takeWhile isWordChar).isEmpty then none
  else some (s.takeWhile isWordChar, s.drop (s.takeWhile isWordChar).length)

/-- One-fuelled unrolling of the `while let` loop of `Parser::lex`
(src/parser.rs lines 123-126): collect identifiers, discarding the result of
`skip_whitespace` between them (`let _ = self.skip_whitespace();`).  Each
iteration consumes at least the (non-empty) matched token, so any fuel
exceeding the length of the unconsumed suffix runs the loop to completion. -/
def Parser.lex_loop_fuel : Nat → List Char → List (List Char)
  | 0, _ => []
  | fuel + 1, s =>
    match Parser.lex_identifier s with
    | none => []
    | some (tok, rest) => tok :: Parser.lex_loop_fuel fuel (Parser.skip_whitespace rest).2

/-- The `while let` loop of `Parser::lex`, with enough fuel to terminate only
when no further identifier matches. -/
def Parser.lex_loop (s : List Char) : List (List Char) :=
  Parser.lex_loop_fuel (s.length + 1) s

/-- `Parser::lex` (src/parser.rs lines 114-129): optional leading number with
mandatory whitespace after it, then the identifier loop. -/
def Parser.lex (s : List Char) : Outcome (Option Nat × List (List Char)) :=
  match Parser.read_number s with
  | .panic => .panic
  | .noDigit => .ok (none, Parser.lex_loop s)
  | .found n rest =>
    match Parser.skip_whitespace rest with
    | (.error e, _) => .err e
    | (.ok _, rest2) => .ok (some n, Parser.lex_loop rest2)

/-- `Parser::parse` (src/parser.rs lines 90-108): lex, then require at least
one identifier; the first becomes `name`, the rest (`split_off(1)`) become
`args`. -/
def Parser.parse (s : List Char) : Outcome RawCommand :=
  match Parser.lex s with
  | .panic => .panic
  | .err e => .err e
  | .ok (count, identifiers) =>
    match identifiers with
    | [] => .err .NoCommand
    | name :: args => .ok ⟨count, name, args⟩

/-- The free function `parse` (src/parser.rs lines 52-57) at the degenerate
target type `RawCommand` (identity conversion). -/
def parse_raw (s : List Char) : Outcome RawCommand := Parser.parse s

/-- `str::to_lowercase` as used by the generated `From<RawCommand>` impl
(ASCII-adequate, character by character). -/
def lowerList (s : List Char) : List Char := s.map Char.toLower

/-- Abstract value of an enum generated by `custom_command!`: either the
variant at a given declaration index, or the `UnrecognisedCommand` catch-all
carrying the raw fields. -/
inductive Mapped where
  | variant (i : Nat)
  | unrecognised (count : Option Nat) (name : List Char) (args : List (List Char))
  deriving DecidableEq

/-- The chain of `if name_as_lower == stringify!($command).to_lowercase()`
tests generated by `custom_command!` (src/macros.rs lines 85-89), in
declaration order, returning the index of the first match. -/
def find_variant (lowName : List Char) : List (List Char) → Nat → Option Nat
  | [], _ => none
  | v :: vs, i => if lowerList v = lowName then some i else find_variant lowName vs (i + 1)

/-- The generated `From<RawCommand>` impl (src/macros.rs lines 81-94):
lowercase the raw name, try each declared variant in order, and fall back to
`UnrecognisedCommand(raw.count, raw.name, raw.args)`. -/
def from_raw (variants : List (List Char)) (raw : RawCommand) : Mapped :=
  match find_variant (lowerList raw.name) variants 0 with
  | some i => .variant i
  | none => .unrecognised raw.count raw.name raw.args

/-- The free function `parse` (src/parser.rs lines 52-57) at a
`custom_command!`-generated target type: parse then convert with `into()`. -/
def parse_typed (variants : List (List Char)) (s : List Char) : Outcome Mapped :=
  match Parser.parse s with
  | .ok r => .ok (from_raw variants r)
  | .err e => .err e
  | .panic => .panic

/-- A line assembled from tokens with explicit whitespace runs between them:
`wsjoin [t1, t2, ..., tk] [w1, ..., w(k-1)] = t1 ++ w1 ++ t2 ++ ... ++ tk`. -/
def wsjoin : List (List Char) → List (List Char) → List Char
  | [], _ => []
  | t :: _, [] => t
  | t :: ts, w :: ws => t ++ w ++ wsjoin ts ws

/-- Re-serialization of a `RawCommand` as described by the spec: the count
(when present) in decimal followed by a space, then the name, then each
argument preceded by a single space. -/
def reserialize (r : RawCommand) : List Char :=
  (match r.count with
   | none => []
   | some n => natToDigits n ++ [' ']) ++
  r.name ++ (r.args.map (fun a => ' ' :: a)).flatten

example : Parser.parse "3 play black D5".toList =
    .ok ⟨some 3, "play".toList, ["black".toList, "D5".toList]⟩ := by decide

example : Parser.parse "quit".toList = .ok ⟨none, "quit".toList, []⟩ := by decide

example : Parser.parse "".toList = .err .NoCommand := by decide

example : Parser.parse "42".toList = .err .NoWhitespace := by decide

example : Parser.parse "4294967296".toList = .panic := by decide

example : parse_typed ["ShowBoard".toList, "Quit".toList] "SHOWBOARD".toList =
    .ok (.variant 0) := by decide

example : parse_typed ["ShowBoard".toList, "Quit".toList] "3 foo bar".toList =
    .ok (.unrecognised (some 3) "foo".toList ["bar".toList]) := by decide

example : Parser.parse "  quit".toList = .err .NoCommand := by decide

example : Parser.parse "play x!!".toList = .ok ⟨none, "play".toList, ["x".toList]⟩ := by decide

example : reserialize ⟨some 3, "a".toList, ["b".toList]⟩ = "3 a b".toList := by decide

/-! ### Character class facts -/

theorem word_toNat (c : Char) (h : isWordChar c = true) :
    (48 ≤ c.toNat ∧ c.toNat ≤ 57) ∨ (65 ≤ c.toNat ∧ c.toNat ≤ 90) ∨
    (97 ≤ c.toNat ∧ c.toNat ≤ 122) ∨ c.toNat = 95 := by
  simp only [isWordChar, Char.isAlphanum, Char.isAlpha, Char.isUpper, Char.isLower,
    Char.isDigit, Bool.or_eq_true, Bool.and_eq_true, decide_eq_true_eq, beq_iff_eq] at h
  rcases h with ((h | h) | h) | h
  · exact Or.inr (Or.inl ⟨by exact_mod_cast h.1, by exact_mod_cast h.2⟩)
  · exact Or.inr (Or.inr (Or.inl ⟨by exact_mod_cast h.1, by exact_mod_cast h.2⟩))
  · exact Or.inl ⟨by exact_mod_cast h.1, by exact_mod_cast h.2⟩
  · subst h
    exact Or.inr (Or.inr (Or.inr rfl))

theorem ws_toNat (c : Char) (h : isWhitespaceChar c = true) :
    (9 ≤ c.toNat ∧ c.toNat ≤ 13) ∨ c.toNat = 32 ∨ c.toNat = 133 ∨ c.toNat = 160 ∨
    c.toNat = 5760 ∨ (8192 ≤ c.toNat ∧ c.toNat ≤ 8202) ∨ c.toNat = 8232 ∨
    c.toNat = 8233 ∨ c.toNat = 8239 ∨ c.toNat = 8287 ∨ c.toNat = 12288 := by
  simp only [isWhitespaceChar, Bool.or_eq_true, Bool.and_eq_true, decide_eq_true_eq,
    beq_iff_eq] at h
  tauto

theorem ws_not_word (c : Char) (h : isWhitespaceChar c = true) : isWordChar c = false := by
  cases hw : isWordChar c with
  | false => rfl
  | true =>
    have h1 := word_toNat c hw
    have h2 := ws_toNat c h
    omega

theorem word_not_ws (c : Char) (h : isWordChar c = true) : isWhitespaceChar c = false := by
  cases hw : isWhitespaceChar c with
  | false => rfl
  | true => rw [ws_not_word c hw] at h; cases h

theorem digit_word (c : Char) (h : isDigitChar c = true) : isWordChar c = true := by
  simp only [isDigitChar] at h
  simp [isWordChar, Char.isAlphanum, h]

theorem ws_not_digit (c : Char) (h : isWhitespaceChar c = true) : isDigitChar c = false := by
  cases hd : isDigitChar c with
  | false => rfl
  | true =>
    have hw := digit_word c hd
    rw [ws_not_word c h] at hw
    cases hw

theorem digit_not_ws (c : Char) (h : isDigitChar c = true) : isWhitespaceChar c = false :=
  word_not_ws c (digit_word c h)

/-! ### takeWhile helpers -/

theorem takeWhile_all_append (p : Char → Bool) (xs ys : List Char)
    (h : ∀ x ∈ xs, p x = true) :
    (xs ++ ys).takeWhile p = xs ++ ys.takeWhile p := by
  induction xs with
  | nil => simp
  | cons a l ih =>
    have ha : p a = true := h a (by simp)
    simp only [List.cons_append, List.takeWhile_cons, ha, if_true]
    rw [ih (fun x hx => h x (by simp [hx]))]

theorem takeWhile_nil_of_head (p : Char → Bool) (s : List Char)
    (h : ∀ c cs, s = c :: cs → p c = false) :
    s.takeWhile p = [] := by
  cases s with
  | nil => rfl
  | cons c cs => simp [List.takeWhile_cons, h c cs rfl]

theorem head_of_takeWhile (p : Char → Bool) (s : List Char) (c : Char) (cs : List Char)
    (h : s.takeWhile p = c :: cs) : ∃ t, s = c :: t := by
  cases s with
  | nil => simp at h
  | cons a l =>
    rw [List.takeWhile_cons] at h
    by_cases hp : p a = true
    · rw [if_pos hp] at h
      exact ⟨l, by rw [(List.cons.injEq _ _ _ _).mp h |>.1]⟩
    · simp [hp] at h

/-! ### Primitive recognizer lemmas -/

theorem lex_identifier_run (t rest : List Char) (ht : t ≠ [])
    (hw : ∀ c ∈ t, isWordChar c = true)
    (hrest : ∀ c cs, rest = c :: cs → isWordChar c = false) :
    Parser.lex_identifier (t ++ rest) = some (t, rest) := by
  have htw : (t ++ rest).takeWhile isWordChar = t := by
    rw [takeWhile_all_append isWordChar t rest hw, takeWhile_nil_of_head isWordChar rest hrest,
      List.append_nil]
  simp only [Parser.lex_identifier, htw]
  rw [if_neg (by simp [ht]), List.drop_left]

theorem lex_identifier_none (s : List Char)
    (h : ∀ c cs, s = c :: cs → isWordChar c = false) :
    Parser.lex_identifier s = none := by
  simp [Parser.lex_identifier, takeWhile_nil_of_head isWordChar s h]

theorem skip_whitespace_run (w rest : List Char) (hw0 : w ≠ [])
    (hw : ∀ c ∈ w, isWhitespaceChar c = true)
    (hrest : ∀ c cs, rest = c :: cs → isWhitespaceChar c = false) :
    Parser.skip_whitespace (w ++ rest) = (.ok (), rest) := by
  have htw : (w ++ rest).takeWhile isWhitespaceChar = w := by
    rw [takeWhile_all_append isWhitespaceChar w rest hw,
      takeWhile_nil_of_head isWhitespaceChar rest hrest, List.append_nil]
  simp only [Parser.skip_whitespace, htw]
  rw [if_neg (by simp [hw0]), List.drop_left]

theorem read_number_noDigit (s : List Char)
    (h : ∀ c cs, s = c :: cs → isDigitChar c = false) :
    Parser.read_number s = .noDigit := by
  simp [Parser.read_number, takeWhile_nil_of_head isDigitChar s h]

theorem read_number_run (d rest : List Char) (hd0 : d ≠ [])
    (hd : ∀ c ∈ d, isDigitChar c = true)
    (hrest : ∀ c cs, rest = c :: cs → isDigitChar c = false)
    (hv : natOfDigits d < 2 ^ 32) :
    Parser.read_number (d ++ rest) = .found (natOfDigits d) rest := by
  have htw : (d ++ rest).takeWhile isDigitChar = d := by
    rw [takeWhile_all_append isDigitChar d rest hd,
      takeWhile_nil_of_head isDigitChar rest hrest, List.append_nil]
  simp only [Parser.read_number, htw]
  rw [if_neg (by simp [hd0]), if_pos hv, List.drop_left]

theorem read_number_found (s : List Char) (n : Nat) (rest : List Char)
    (h : Parser.read_number s = .found n rest) : n < 2 ^ 32 := by
  simp only [Parser.read_number] at h
  split at h
  · cases h
  · split at h
    · rename_i hlt
      injection h with h1 _
      rw [← h1]; exact hlt
    · cases h

theorem read_number_noDigit_head (s : List Char) (c : Char) (cs : List Char)
    (h : Parser.read_number s = .noDigit) (hs : s = c :: cs) : isDigitChar c = false := by
  subst hs
  simp only [Parser.read_number] at h
  by_cases hc : isDigitChar c = true
  · rw [List.takeWhile_cons, if_pos hc] at h
    simp at h
    split at h <;> cases h
  · simpa using hc

/-! ### Loop lemmas -/

theorem lex_identifier_some_facts (s tok rest : List Char)
    (h : Parser.lex_identifier s = some (tok, rest)) :
    tok = s.takeWhile isWordChar ∧ rest = s.drop tok.length ∧ tok ≠ [] := by
  simp only [Parser.lex_identifier] at h
  split at h
  · cases h
  · rename_i hne
    injection h with h
    injection h with h1 h2
    refine ⟨h1.symm, by rw [← h2, h1], ?_⟩
    rw [h1] at hne
    simpa using hne

theorem skip_whitespace_snd (s : List Char) :
    (Parser.skip_whitespace s).2 = s.drop (s.takeWhile isWhitespaceChar).length := rfl

theorem takeWhile_length_le (p : Char → Bool) (s : List Char) :
    (s.takeWhile p).length ≤ s.length := by
  have hh := congrArg List.length (List.takeWhile_append_dropWhile p s)
  rw [List.length_append] at hh
  omega

theorem lex_identifier_shrinks (s tok rest : List Char)
    (h : Parser.lex_identifier s = some (tok, rest)) :
    (Parser.skip_whitespace rest).2.length < s.length := by
  obtain ⟨h1, h2, h3⟩ := lex_identifier_some_facts s tok rest h
  have htw : tok.length ≤ s.length := h1 ▸ takeWhile_length_le isWordChar s
  have hpos : 0 < tok.length := List.length_pos.mpr h3
  rw [skip_whitespace_snd, h2]
  simp only [List.length_drop]
  omega

theorem lex_loop_fuel_mono (fuel : Nat) : ∀ (fuel2 : Nat) (s : List Char),
    s.length < fuel → s.length < fuel2 →
    Parser.lex_loop_fuel fuel s = Parser.lex_loop_fuel fuel2 s := by
  induction fuel with
  | zero => intro fuel2 s h1 _; omega
  | succ fuel ih =>
    intro fuel2 s h1 h2
    cases fuel2 with
    | zero => omega
    | succ fuel2 =>
      cases hid : Parser.lex_identifier s with
      | none =>
        have e1 : Parser.lex_loop_fuel (fuel + 1) s = [] := by
          rw [Parser.lex_loop_fuel, hid]
        have e2 : Parser.lex_loop_fuel (fuel2 + 1) s = [] := by
          rw [Parser.lex_loop_fuel, hid]
        rw [e1, e2]
      | some p =>
        obtain ⟨tok, rest⟩ := p
        have hlt := lex_identifier_shrinks s tok rest hid
        have e1 : Parser.lex_loop_fuel (fuel + 1) s
            = tok :: Parser.lex_loop_fuel fuel (Parser.skip_whitespace rest).2 := by
          rw [Parser.lex_loop_fuel, hid]
        have e2 : Parser.lex_loop_fuel (fuel2 + 1) s
            = tok :: Parser.lex_loop_fuel fuel2 (Parser.skip_whitespace rest).2 := by
          rw [Parser.lex_loop_fuel, hid]
        rw [e1, e2, ih fuel2 (Parser.skip_whitespace rest).2 (by omega) (by omega)]

theorem lex_loop_none (s : List Char) (h : Parser.lex_identifier s = none) :
    Parser.lex_loop s = [] := by
  simp only [Parser.lex_loop]
  rw [Parser.lex_loop_fuel, h]

theorem lex_loop_some (s tok rest : List Char)
    (h : Parser.lex_identifier s = some (tok, rest)) :
    Parser.lex_loop s = tok :: Parser.lex_loop (Parser.skip_whitespace rest).2 := by
  have hlt := lex_identifier_shrinks s tok rest h
  have e1 : Parser.lex_loop s
      = tok :: Parser.lex_loop_fuel s.length (Parser.skip_whitespace rest).2 := by
    simp only [Parser.lex_loop]
    rw [Parser.lex_loop_fuel, h]
  rw [e1, Parser.lex_loop,
    lex_loop_fuel_mono s.length ((Parser.skip_whitespace rest).2.length + 1)
      (Parser.skip_whitespace rest).2 (by omega) (by omega)]

theorem lex_loop_fuel_tokens (fuel : Nat) : ∀ (s : List Char),
    ∀ t ∈ Parser.lex_loop_fuel fuel s, t ≠ [] ∧ ∀ c ∈ t, isWordChar c = true := by
  induction fuel with
  | zero => intro s t ht; simp [Parser.lex_loop_fuel] at ht
  | succ fuel ih =>
    intro s t ht
    cases hid : Parser.lex_identifier s with
    | none =>
      rw [Parser.lex_loop_fuel, hid] at ht
      simp at ht
    | some p =>
      obtain ⟨tok, rest⟩ := p
      rw [Parser.lex_loop_fuel, hid] at ht
      have ht2 : t = tok ∨ t ∈ Parser.lex_loop_fuel fuel (Parser.skip_whitespace rest).2 := by
        simpa using ht
      rcases ht2 with rfl | ht2
      · obtain ⟨h1, _, h3⟩ := lex_identifier_some_facts s t rest hid
        exact ⟨h3, fun c hc => List.mem_takeWhile_imp (h1 ▸ hc)⟩
      · exact ih (Parser.skip_whitespace rest).2 t ht2

theorem lex_loop_tokens (s : List Char) :
    ∀ t ∈ Parser.lex_loop s, t ≠ [] ∧ ∀ c ∈ t, isWordChar c = true :=
  lex_loop_fuel_tokens (s.length + 1) s

theorem lex_loop_head (s : List Char) (t : List Char) (ts : List (List Char))
    (h : Parser.lex_loop s = t :: ts) : t = s.takeWhile isWordChar := by
  cases hid : Parser.lex_identifier s with
  | none => rw [lex_loop_none s hid] at h; cases h
  | some p =>
    obtain ⟨tok, rest⟩ := p
    rw [lex_loop_some s tok rest hid] at h
    obtain ⟨h1, _, _⟩ := lex_identifier_some_facts s tok rest hid
    injection h with h4 _
    rw [← h4, h1]

/-! ### Token-join lemmas -/

theorem wsjoin_cons (t : List Char) (ts ws : List (List Char)) :
    ∃ r, wsjoin (t :: ts) ws = t ++ r := by
  cases ws with
  | nil => exact ⟨[], by simp [wsjoin]⟩
  | cons w ws => exact ⟨w ++ wsjoin ts ws, by simp [wsjoin]⟩

theorem lex_loop_join (ws : List (List Char)) : ∀ (ts : List (List Char)) (junk : List Char),
    ws.length + 1 = ts.length →
    (∀ t ∈ ts, t ≠ [] ∧ ∀ c ∈ t, isWordChar c = true) →
    (∀ w ∈ ws, w ≠ [] ∧ ∀ c ∈ w, isWhitespaceChar c = true) →
    (∀ c cs, junk = c :: cs → isWordChar c = false ∧ isWhitespaceChar c = false) →
    Parser.lex_loop (wsjoin ts ws ++ junk) = ts := by
  induction ws with
  | nil =>
    intro ts junk hlen hts _ hjunk
    obtain ⟨t, rfl⟩ : ∃ t, ts = [t] := by
      cases ts with
      | nil => simp at hlen
      | cons t l =>
        cases l with
        | nil => exact ⟨t, rfl⟩
        | cons a b => simp at hlen
    obtain ⟨ht0, htw⟩ := hts t (by simp)
    have hid : Parser.lex_identifier (t ++ junk) = some (t, junk) :=
      lex_identifier_run t junk ht0 htw (fun c cs hc => (hjunk c cs hc).1)
    have hsw : (Parser.skip_whitespace junk).2 = junk := by
      rw [skip_whitespace_snd,
        takeWhile_nil_of_head isWhitespaceChar junk (fun c cs hc => (hjunk c cs hc).2)]
      simp
    have hjunk2 : Parser.lex_loop junk = [] :=
      lex_loop_none junk (lex_identifier_none junk (fun c cs hc => (hjunk c cs hc).1))
    show Parser.lex_loop (t ++ junk) = [t]
    rw [lex_loop_some (t ++ junk) t junk hid, hsw, hjunk2]
  | cons w ws ih =>
    intro ts junk hlen hts hws hjunk
    obtain ⟨t, t', ts', rfl⟩ : ∃ t t' ts', ts = t :: t' :: ts' := by
      cases ts with
      | nil => simp at hlen
      | cons t l =>
        cases l with
        | nil => simp at hlen
        | cons t' ts' => exact ⟨t, t', ts', rfl⟩
    have hts' : ws.length + 1 = (t' :: ts').length := by
      simp only [List.length_cons] at hlen ⊢
      omega
    obtain ⟨ht0, htw⟩ := hts t (by simp)
    obtain ⟨hw0, hwc⟩ := hws w (by simp)
    obtain ⟨ht'0, ht'w⟩ := hts t' (by simp)
    obtain ⟨r, hr⟩ := wsjoin_cons t' ts' ws
    have hline : wsjoin (t :: t' :: ts') (w :: ws) ++ junk
        = t ++ (w ++ (wsjoin (t' :: ts') ws ++ junk)) := by
      simp [wsjoin, List.append_assoc]
    have hleadw : ∀ c cs, w ++ (wsjoin (t' :: ts') ws ++ junk) = c :: cs →
        isWordChar c = false := by
      intro c cs hc
      cases w with
      | nil => exact absurd rfl hw0
      | cons a l =>
        injection hc with hc1 _
        rw [← hc1]
        exact ws_not_word a (hwc a (by simp))
    have hnext : ∀ c cs, wsjoin (t' :: ts') ws ++ junk = c :: cs →
        isWhitespaceChar c = false := by
      intro c cs hc
      rw [hr] at hc
      cases t' with
      | nil => exact absurd rfl ht'0
      | cons a l =>
        rw [List.cons_append] at hc
        injection hc with hc1 _
        rw [← hc1]
        exact word_not_ws a (ht'w a (by simp))
    have hid : Parser.lex_identifier (t ++ (w ++ (wsjoin (t' :: ts') ws ++ junk)))
        = some (t, w ++ (wsjoin (t' :: ts') ws ++ junk)) :=
      lex_identifier_run t _ ht0 htw hleadw
    have hskip : Parser.skip_whitespace (w ++ (wsjoin (t' :: ts') ws ++ junk))
        = (.ok (), wsjoin (t' :: ts') ws ++ junk) :=
      skip_whitespace_run w _ hw0 hwc hnext
    rw [hline, lex_loop_some _ t _ hid, hskip]
    rw [ih (t' :: ts') junk hts' (fun x hx => hts x (by simp [hx]))
      (fun x hx => hws x (List.mem_cons_of_mem w hx)) hjunk]

/-! ### Whole-line parse lemmas -/

theorem parse_join (c0 : Char) (t0 : List Char) (ts ws : List (List Char)) (junk : List Char)
    (h0w : isWordChar c0 = true) (h0d : isDigitChar c0 = false)
    (h0t : ∀ c ∈ t0, isWordChar c = true)
    (hts : ∀ t ∈ ts, t ≠ [] ∧ ∀ c ∈ t, isWordChar c = true)
    (hlen : ws.length = ts.length)
    (hws : ∀ w ∈ ws, w ≠ [] ∧ ∀ c ∈ w, isWhitespaceChar c = true)
    (hjunk : ∀ c cs, junk = c :: cs → isWordChar c = false ∧ isWhitespaceChar c = false) :
    Parser.parse (wsjoin ((c0 :: t0) :: ts) ws ++ junk) = .ok ⟨none, c0 :: t0, ts⟩ := by
  obtain ⟨r, hr⟩ := wsjoin_cons (c0 :: t0) ts ws
  have hnum : Parser.read_number (wsjoin ((c0 :: t0) :: ts) ws ++ junk) = .noDigit := by
    apply read_number_noDigit
    intro c cs hc
    rw [hr, List.cons_append, List.cons_append] at hc
    injection hc with hc1 _
    rw [← hc1]
    exact h0d
  have hloop : Parser.lex_loop (wsjoin ((c0 :: t0) :: ts) ws ++ junk) = (c0 :: t0) :: ts := by
    apply lex_loop_join ws ((c0 :: t0) :: ts) junk (by simp [hlen]) ?_ hws hjunk
    intro t ht
    rcases List.mem_cons.mp ht with rfl | ht
    · exact ⟨by simp, by
        intro c hc
        rcases List.mem_cons.mp hc with rfl | hc
        · exact h0w
        · exact h0t c hc⟩
    · exact hts t ht
  show Parser.parse _ = _
  simp only [Parser.parse, Parser.lex, hnum, hloop]

theorem parse_count_join (d w : List Char) (t0 : List Char) (ts ws : List (List Char))
    (hd0 : d ≠ []) (hd : ∀ c ∈ d, isDigitChar c = true)
    (hv : natOfDigits d < 2 ^ 32)
    (hw0 : w ≠ []) (hwc : ∀ c ∈ w, isWhitespaceChar c = true)
    (ht00 : t0 ≠ []) (ht0 : ∀ c ∈ t0, isWordChar c = true)
    (hts : ∀ t ∈ ts, t ≠ [] ∧ ∀ c ∈ t, isWordChar c = true)
    (hlen : ws.length = ts.length)
    (hws : ∀ w2 ∈ ws, w2 ≠ [] ∧ ∀ c ∈ w2, isWhitespaceChar c = true) :
    Parser.parse (d ++ w ++ wsjoin (t0 :: ts) ws)
      = .ok ⟨some (natOfDigits d), t0, ts⟩ := by
  obtain ⟨r, hr⟩ := wsjoin_cons t0 ts ws
  have hwordhead : ∀ c cs, wsjoin (t0 :: ts) ws = c :: cs → isWordChar c = true := by
    intro c cs hc
    rw [hr] at hc
    cases t0 with
    | nil => exact absurd rfl ht00
    | cons a l =>
      rw [List.cons_append] at hc
      injection hc with hc1 _
      rw [← hc1]
      exact ht0 a (by simp)
  have hwshead : ∀ c cs, w ++ wsjoin (t0 :: ts) ws = c :: cs → isDigitChar c = false := by
    intro c cs hc
    cases w with
    | nil => exact absurd rfl hw0
    | cons a l =>
      injection hc with hc1 _
      rw [← hc1]
      exact ws_not_digit a (hwc a (by simp))
  have hnum : Parser.read_number (d ++ (w ++ wsjoin (t0 :: ts) ws))
      = .found (natOfDigits d) (w ++ wsjoin (t0 :: ts) ws) :=
    read_number_run d _ hd0 hd hwshead hv
  have hskip : Parser.skip_whitespace (w ++ wsjoin (t0 :: ts) ws)
      = (.ok (), wsjoin (t0 :: ts) ws) :=
    skip_whitespace_run w _ hw0 hwc
      (fun c cs hc => word_not_ws c (hwordhead c cs hc))
  have hloop : Parser.lex_loop (wsjoin (t0 :: ts) ws ++ []) = t0 :: ts := by
    apply lex_loop_join ws (t0 :: ts) [] (by simp [hlen]) ?_ hws (by intro c cs hc; cases hc)
    intro t ht
    rcases List.mem_cons.mp ht with rfl | ht
    · exact ⟨ht00, ht0⟩
    · exact hts t ht
  rw [List.append_nil] at hloop
  rw [List.append_assoc]
  simp only [Parser.parse, Parser.lex, hnum, hskip, hloop]

theorem lex_ok_inv (s : List Char) (cnt : Option Nat) (ids : List (List Char))
    (h : Parser.lex s = .ok (cnt, ids)) :
    (Parser.read_number s = .noDigit ∧ cnt = none ∧ ids = Parser.lex_loop s) ∨
    (∃ n rest, Parser.read_number s = .found n rest ∧ cnt = some n ∧
      ids = Parser.lex_loop (Parser.skip_whitespace rest).2) := by
  simp only [Parser.lex] at h
  cases hnum : Parser.read_number s with
  | panic => rw [hnum] at h; cases h
  | noDigit =>
    rw [hnum] at h
    have h2 : (Outcome.ok (none, Parser.lex_loop s)
        : Outcome (Option Nat × List (List Char))) = .ok (cnt, ids) := h
    injection h2 with h2
    exact Or.inl ⟨rfl, (congrArg Prod.fst h2).symm, (congrArg Prod.snd h2).symm⟩
  | found m rest =>
    rw [hnum] at h
    cases hsk : Parser.skip_whitespace rest with
    | mk res rest2 =>
      have h2 : (match Parser.skip_whitespace rest with
          | (Except.error e, _) => Outcome.err e
          | (Except.ok _, rest3) => Outcome.ok (some m, Parser.lex_loop rest3))
            = (Outcome.ok (cnt, ids) : Outcome (Option Nat × List (List Char))) := h
      rw [hsk] at h2
      cases res with
      | error e =>
        have h3 : (Outcome.err e : Outcome (Option Nat × List (List Char)))
            = .ok (cnt, ids) := h2
        cases h3
      | ok u =>
        have h3 : (Outcome.ok (some m, Parser.lex_loop rest2)
            : Outcome (Option Nat × List (List Char))) = .ok (cnt, ids) := h2
        injection h3 with h3
        refine Or.inr ⟨m, rest, rfl, (congrArg Prod.fst h3).symm, ?_⟩
        rw [hsk]
        exact (congrArg Prod.snd h3).symm

theorem parse_ok_inv (s : List Char) (r : RawCommand) (h : Parser.parse s = .ok r) :
    Parser.lex s = .ok (r.count, r.name :: r.args) := by
  simp only [Parser.parse] at h
  cases hlex : Parser.lex s with
  | panic => rw [hlex] at h; cases h
  | err e => rw [hlex] at h; cases h
  | ok p =>
    obtain ⟨cnt, ids⟩ := p
    rw [hlex] at h
    cases ids with
    | nil =>
      have h2 : (Outcome.err ErrorKind.NoCommand : Outcome RawCommand) = .ok r := h
      cases h2
    | cons nm args =>
      have h2 : (Outcome.ok ⟨cnt, nm, args⟩ : Outcome RawCommand) = .ok r := h
      injection h2 with h2
      subst h2
      rfl

theorem parse_ok_shape (s : List Char) (r : RawCommand) (h : Parser.parse s = .ok r) :
    (r.name ≠ [] ∧ ∀ c ∈ r.name, isWordChar c = true) ∧
    (∀ t ∈ r.args, t ≠ [] ∧ ∀ c ∈ t, isWordChar c = true) ∧
    (∀ n, r.count = some n → n < 2 ^ 32) ∧
    (r.count = none → ∀ c cs, r.name = c :: cs → isDigitChar c = false) := by
  have hlex := parse_ok_inv s r h
  rcases lex_ok_inv s r.count (r.name :: r.args) hlex with
    ⟨hnum, hcnt, hids⟩ | ⟨n, rest, hnum, hcnt, hids⟩
  · have hmem : r.name ∈ Parser.lex_loop s := by rw [← hids]; simp
    refine ⟨lex_loop_tokens s r.name hmem, ?_, ?_, ?_⟩
    · intro t ht
      exact lex_loop_tokens s t (by rw [← hids]; simp [ht])
    · intro m hm
      rw [hcnt] at hm
      cases hm
    · intro _ c cs hname
      have hhead : r.name = s.takeWhile isWordChar := by
        exact lex_loop_head s r.name (r.args) hids.symm
      rw [hname] at hhead
      obtain ⟨t, ht⟩ := head_of_takeWhile isWordChar s c cs hhead.symm
      exact read_number_noDigit_head s c t hnum ht
  · have hmem : r.name ∈ Parser.lex_loop (Parser.skip_whitespace rest).2 := by
      rw [← hids]; simp
    refine ⟨lex_loop_tokens _ r.name hmem, ?_, ?_, ?_⟩
    · intro t ht
      exact lex_loop_tokens _ t (by rw [← hids]; simp [ht])
    · intro m hm
      rw [hcnt] at hm
      injection hm with hm
      rw [← hm]
      exact read_number_found s n rest hnum
    · intro hnone
      rw [hcnt] at hnone
      cases hnone

/-! ### Decimal rendering lemmas -/

theorem digitChar_spec : ∀ d, d < 10 →
    isDigitChar (digitChar d) = true ∧ digitToNat (digitChar d) = d := by decide

theorem natToDigitsAux_append (fuel : Nat) : ∀ (n : Nat) (acc : List Char),
    natToDigitsAux fuel n acc = natToDigitsAux fuel n [] ++ acc := by
  induction fuel with
  | zero => intro n acc; simp [natToDigitsAux]
  | succ fuel ih =>
    intro n acc
    by_cases hn : n = 0
    · simp [natToDigitsAux, hn]
    · rw [natToDigitsAux, if_neg hn, natToDigitsAux, if_neg hn]
      rw [ih (n / 10) (digitChar (n % 10) :: acc), ih (n / 10) [digitChar (n % 10)]]
      simp

theorem natOfDigits_natToDigitsAux (fuel : Nat) : ∀ (n : Nat), n ≤ fuel →
    natOfDigits (natToDigitsAux fuel n []) = n := by
  induction fuel with
  | zero => intro n hn; simp [natToDigitsAux, natOfDigits]; omega
  | succ fuel ih =>
    intro n hn
    by_cases hn0 : n = 0
    · simp [natToDigitsAux, hn0, natOfDigits]
    · rw [natToDigitsAux, if_neg hn0,
        natToDigitsAux_append fuel (n / 10) [digitChar (n % 10)]]
      have hdiv : n / 10 ≤ fuel := by omega
      have hd := digitChar_spec (n % 10) (Nat.mod_lt n (by omega))
      simp only [natOfDigits] at ih ⊢
      rw [List.foldl_append, ih (n / 10) hdiv]
      simp only [List.foldl_cons, List.foldl_nil, hd.2]
      omega

theorem natToDigitsAux_all_digits (fuel : Nat) : ∀ (n : Nat) (acc : List Char),
    (∀ c ∈ acc, isDigitChar c = true) →
    ∀ c ∈ natToDigitsAux fuel n acc, isDigitChar c = true := by
  induction fuel with
  | zero => intro n acc hacc; simpa [natToDigitsAux] using hacc
  | succ fuel ih =>
    intro n acc hacc c hc
    by_cases hn : n = 0
    · rw [natToDigitsAux, if_pos hn] at hc
      exact hacc c hc
    · rw [natToDigitsAux, if_neg hn] at hc
      refine ih (n / 10) _ ?_ c hc
      intro x hx
      rcases List.mem_cons.mp hx with rfl | hx
      · exact (digitChar_spec (n % 10) (Nat.mod_lt n (by omega))).1
      · exact hacc x hx

theorem natToDigits_spec (n : Nat) :
    natToDigits n ≠ [] ∧ (∀ c ∈ natToDigits n, isDigitChar c = true) ∧
    natOfDigits (natToDigits n) = n := by
  by_cases hn : n = 0
  · subst hn
    refine ⟨by decide, by decide, by decide⟩
  · have hne : natToDigits n ≠ [] := by
      obtain ⟨m, rfl⟩ : ∃ m, n = m + 1 := ⟨n - 1, by omega⟩
      simp only [natToDigits, if_neg hn, natToDigitsAux, if_neg hn]
      rw [natToDigitsAux_append m ((m + 1) / 10) [digitChar ((m + 1) % 10)]]
      simp
    refine ⟨hne, ?_, ?_⟩
    · intro c hc
      rw [natToDigits, if_neg hn] at hc
      exact natToDigitsAux_all_digits n n [] (by simp) c hc
    · rw [natToDigits, if_neg hn]
      exact natOfDigits_natToDigitsAux n n (Nat.le_refl n)

/-! ### Serialization shape lemmas -/

theorem spaces_join (args : List (List Char)) : ∀ (t : List Char),
    wsjoin (t :: args) (List.replicate args.length [' '])
      = t ++ (args.map (fun a => ' ' :: a)).flatten := by
  induction args with
  | nil => intro t; simp [wsjoin]
  | cons a args ih =>
    intro t
    simp only [List.length_cons, List.replicate, wsjoin, List.map_cons, List.flatten_cons]
    rw [ih a]
    simp

/-! ### Variant matching lemmas -/

theorem find_variant_first (nl : List Char) (vs : List (List Char)) : ∀ (k i : Nat)
    (hi : i < vs.length),
    lowerList (vs.get ⟨i, hi⟩) = nl →
    (∀ j (hj : j < vs.length), j < i → lowerList (vs.get ⟨j, hj⟩) ≠ nl) →
    find_variant nl vs k = some (k + i) := by
  induction vs with
  | nil => intro k i hi _ _; simp at hi
  | cons v vs ih =>
    intro k i hi hmatch hfirst
    cases i with
    | zero =>
      have hm : lowerList v = nl := hmatch
      rw [find_variant, if_pos hm]
      simp
    | succ i =>
      have hv : lowerList v ≠ nl := by
        have := hfirst 0 (by simp) (by omega)
        simpa using this
      rw [find_variant, if_neg hv]
      have hi' : i < vs.length := by simpa using hi
      have := ih (k + 1) i hi' (by simpa using hmatch) ?_
      · rw [this]
        congr 1
        omega
      · intro j hj hji
        have := hfirst (j + 1) (by simpa using hj) (by omega)
        simpa using this

/-! ### Claim theorems -/

/-- C1: every input line composed only of whitespace-separated word tokens
(letters, digits, underscore) with no leading digit parses successfully with
`count = none`, `name` the first token, and `args` the remaining tokens in
their original order.  The line is `wsjoin ((c0 :: t0) :: ts) ws`: the first
token `c0 :: t0` (whose first character is not a digit), then the further
tokens `ts`, separated by the non-empty whitespace runs `ws`. -/
theorem C1_word_token_lines (c0 : Char) (t0 : List Char) (ts ws : List (List Char))
    (h0w : isWordChar c0 = true) (h0d : isDigitChar c0 = false)
    (h0t : ∀ c ∈ t0, isWordChar c = true)
    (hts : ∀ t ∈ ts, t ≠ [] ∧ ∀ c ∈ t, isWordChar c = true)
    (hlen : ws.length = ts.length)
    (hws : ∀ w ∈ ws, w ≠ [] ∧ ∀ c ∈ w, isWhitespaceChar c = true) :
    Parser.parse (wsjoin ((c0 :: t0) :: ts) ws) = .ok ⟨none, c0 :: t0, ts⟩ := by
  have h := parse_join c0 t0 ts ws [] h0w h0d h0t hts hlen hws
    (by intro c cs hc; cases hc)
  simpa using h

/-- Witness for C1: `parse "play b5" = ok (none, "play", ["b5"])`. -/
theorem C1_witness :
    Parser.parse (wsjoin (['p', 'l', 'a', 'y'] :: [['b', '5']]) [[' ']])
      = .ok ⟨none, ['p', 'l', 'a', 'y'], [['b', '5']]⟩ :=
  C1_word_token_lines 'p' ['l', 'a', 'y'] [['b', '5']] [[' ']]
    (by decide) (by decide) (by decide) (by decide) (by decide) (by decide)

/-- C2: for any declared variant list and any string that is a case
permutation of the variant at index `i` (same character-wise lowercasing) and
is matched by no earlier variant, parsing a line consisting of that string
maps to the variant at index `i`. -/
theorem C2_case_insensitive_dispatch (variants : List (List Char)) (i : Nat)
    (hi : i < variants.length) (c0 : Char) (t0 : List Char)
    (h0w : isWordChar c0 = true) (h0d : isDigitChar c0 = false)
    (h0t : ∀ c ∈ t0, isWordChar c = true)
    (hmatch : lowerList (c0 :: t0) = lowerList (variants.get ⟨i, hi⟩))
    (hfirst : ∀ j (hj : j < variants.length), j < i →
      lowerList (variants.get ⟨j, hj⟩) ≠ lowerList (c0 :: t0)) :
    parse_typed variants (c0 :: t0) = .ok (.variant i) := by
  have hp : Parser.parse (c0 :: t0) = .ok ⟨none, c0 :: t0, []⟩ := by
    have h := parse_join c0 t0 [] [] [] h0w h0d h0t (by simp) (by simp) (by simp)
      (by intro c cs hc; cases hc)
    simpa [wsjoin] using h
  have hfv : find_variant (lowerList (c0 :: t0)) variants 0 = some i := by
    have h := find_variant_first (lowerList (c0 :: t0)) variants 0 i hi hmatch.symm
      (fun j hj hji => hfirst j hj hji)
    simpa using h
  simp only [parse_typed, hp, from_raw, hfv]

/-- Witness for C2: with variants `{ShowBoard, Quit}`, `parse "SHOWBOARD"`
yields the `ShowBoard` variant (declaration index 0). -/
theorem C2_witness :
    parse_typed [['S', 'h', 'o', 'w', 'B', 'o', 'a', 'r', 'd'], ['Q', 'u', 'i', 't']]
      ('S' :: ['H', 'O', 'W', 'B', 'O', 'A', 'R', 'D']) = .ok (.variant 0) :=
  C2_case_insensitive_dispatch
    [['S', 'h', 'o', 'w', 'B', 'o', 'a', 'r', 'd'], ['Q', 'u', 'i', 't']] 0 (by decide)
    'S' ['H', 'O', 'W', 'B', 'O', 'A', 'R', 'D']
    (by decide) (by decide) (by decide) (by decide)
    (by intro j hj hji; exact absurd hji (by omega))

/-- C5: whenever the lexing phase succeeds having collected zero identifier
tokens, parse fails with `NoCommand`. -/
theorem C5_no_identifiers_no_command (s : List Char) (cnt : Option Nat)
    (h : Parser.lex s = .ok (cnt, [])) : Parser.parse s = .err .NoCommand := by
  simp only [Parser.parse, h]

/-- Witness for C5: `parse ""` fails with `NoCommand`. -/
theorem C5_witness : Parser.parse [] = .err .NoCommand :=
  C5_no_identifiers_no_command [] none (by decide)

/-- C6: whenever parsing succeeds, the `name` field of the resulting
`RawCommand` is a non-empty string. -/
theorem C6_name_nonempty (s : List Char) (r : RawCommand)
    (h : Parser.parse s = .ok r) : r.name ≠ [] :=
  (parse_ok_shape s r h).1.1

/-- Witness for C6: parsing `"q"` succeeds and its name `['q']` is
non-empty. -/
theorem C6_witness : (RawCommand.mk none ['q'] []).name ≠ [] :=
  C6_name_nonempty ['q'] ⟨none, ['q'], []⟩ (by decide)

/-- C7: for every `RawCommand` produced by a successful parse, re-serializing
it (count, a space, name, then the args each preceded by a single space,
omitting the count and its space when absent) and re-parsing yields back an
equal `RawCommand`. -/
theorem C7_reserialize_roundtrip (s : List Char) (r : RawCommand)
    (h : Parser.parse s = .ok r) : Parser.parse (reserialize r) = .ok r := by
  obtain ⟨⟨hn0, hnw⟩, hargs, hcnt, hnd⟩ := parse_ok_shape s r h
  have hwsrun : ∀ w ∈ List.replicate r.args.length ([' '] : List Char),
      w ≠ [] ∧ ∀ c ∈ w, isWhitespaceChar c = true := by
    intro w hw
    rw [List.eq_of_mem_replicate hw]
    refine ⟨by simp, ?_⟩
    intro c hc
    simp only [List.mem_singleton] at hc
    rw [hc]
    decide
  cases hr : r.count with
  | none =>
    obtain ⟨c0, t0, hname⟩ : ∃ c0 t0, r.name = c0 :: t0 := by
      cases hq : r.name with
      | nil => exact absurd hq hn0
      | cons a l => exact ⟨a, l, rfl⟩
    have hser : reserialize r
        = wsjoin (r.name :: r.args) (List.replicate r.args.length [' ']) := by
      simp only [reserialize, hr, spaces_join, List.nil_append]
    have h0d : isDigitChar c0 = false := hnd hr c0 t0 hname
    have h0w : isWordChar c0 = true := hnw c0 (by rw [hname]; simp)
    have h0t : ∀ c ∈ t0, isWordChar c = true := fun c hc => hnw c (by rw [hname]; simp [hc])
    have hjoin := parse_join c0 t0 r.args (List.replicate r.args.length [' ']) []
      h0w h0d h0t hargs (by simp) hwsrun (by intro c cs hc; cases hc)
    rw [← hname, List.append_nil] at hjoin
    rw [hser, hjoin, ← hr]
  | some n =>
    have hn32 : n < 2 ^ 32 := hcnt n hr
    have hdig := natToDigits_spec n
    have hser : reserialize r = natToDigits n ++ [' ']
        ++ wsjoin (r.name :: r.args) (List.replicate r.args.length [' ']) := by
      simp only [reserialize, hr, spaces_join, List.append_assoc]
    have hjoin := parse_count_join (natToDigits n) [' '] r.name r.args
      (List.replicate r.args.length [' '])
      hdig.1 hdig.2.1 (by rw [hdig.2.2]; exact hn32)
      (by simp)
      (by intro c hc; simp only [List.mem_singleton] at hc; rw [hc]; decide)
      hn0 hnw hargs (by simp) hwsrun
    rw [hdig.2.2] at hjoin
    rw [hser, hjoin, ← hr]

/-- Witness for C7: parsing `"3 a b"` gives `(Some 3, "a", ["b"])`, and
parsing its re-serialization gives the same command. -/
theorem C7_witness :
    Parser.parse (reserialize ⟨some 3, ['a'], [['b']]⟩)
      = .ok ⟨some 3, ['a'], [['b']]⟩ :=
  C7_reserialize_roundtrip ['3', ' ', 'a', ' ', 'b'] ⟨some 3, ['a'], [['b']]⟩ (by decide)

/-- C8: evaluation of the code at the failing input.  The line
`"4294967296"` (`u32::MAX + 1`) begins with a digit run that exceeds the
unsigned 32-bit range; the code panics in `u32::from_str(...).unwrap()`
instead of returning an error value, so the outcome is neither an `Err`
value nor a silently wrapped number. -/
theorem C8_overflow_panics :
    Parser.parse ['4', '2', '9', '4', '9', '6', '7', '2', '9', '6'] = .panic := by
  decide

/-- C10: a line that begins with a whitespace character always fails with
`NoCommand`, whatever follows the leading whitespace: leading whitespace is
never skipped before the first token. -/
theorem C10_leading_whitespace_no_command (c : Char) (cs : List Char)
    (h : isWhitespaceChar c = true) :
    Parser.parse (c :: cs) = .err .NoCommand := by
  have hnum : Parser.read_number (c :: cs) = .noDigit := by
    apply read_number_noDigit
    intro c2 cs2 hc
    injection hc with h1 _
    rw [← h1]
    exact ws_not_digit c h
  have hloop : Parser.lex_loop (c :: cs) = [] := by
    apply lex_loop_none
    apply lex_identifier_none
    intro c2 cs2 hc
    injection hc with h1 _
    rw [← h1]
    exact ws_not_word c h
  simp only [Parser.parse, Parser.lex, hnum, hloop]

/-- Witness for C10: `parse " quit"` fails with `NoCommand` even though a
well-formed command follows the leading space. -/
theorem C10_witness : Parser.parse (' ' :: ['q', 'u', 'i', 't']) = .err .NoCommand :=
  C10_leading_whitespace_no_command ' ' ['q', 'u', 'i', 't'] (by decide)
